import Mathlib

/-!
Shallow embedding of the entity-resolution core of PyBiographical
(`src/pybiographical`): the normalizers and similarity fallback
(`matching/fuzzy.py`), the confidence scorer, the location registry
(`locations/registry.py`), the name registry and resolver
(`names/registry.py`, `names/resolver.py`).

Python strings are modelled as lists of Unicode code points (`List Nat`);
Python floats are modelled as rationals (ℚ) except for the haversine
distance, which uses real numbers; Python dicts (which preserve insertion
order) are modelled as association lists; raising an exception is modelled
with `Except`/flags, with the registry state on a raise being the unchanged
input state (the Python methods raise before mutating).
-/

/-- Python strings, as lists of Unicode code points. -/
abbrev Str := List Nat

/-- Code point of the space character. -/
def spaceCp : Nat := 32

/-- Code point of the period character. -/
def periodCp : Nat := 46

/-- Code point of the comma character. -/
def commaCp : Nat := 44

/-- `str.lower` on one code point (ASCII range, which is all the repository's
data and suffix vocabulary use). -/
def lowerCp (c : Nat) : Nat := if 65 ≤ c ∧ c ≤ 90 then c + 32 else c

/-- `str.lower`. -/
def pyLower (s : Str) : Str := s.map lowerCp

/-- The whitespace code points recognised by `str.split()` / `str.strip()`
(space, tab, newline, vertical tab, form feed, carriage return). -/
def isSpaceCp (c : Nat) : Bool :=
  c = 32 || c = 9 || c = 10 || c = 11 || c = 12 || c = 13

/-- `str.strip()`: drop leading and trailing whitespace. -/
def pyStrip (s : Str) : Str :=
  ((s.dropWhile isSpaceCp).reverse.dropWhile isSpaceCp).reverse

/-- The chunks of a string between whitespace characters, empties included:
`chunks "a  b" = ["a", "", "b"]`.  Helper for `str.split()`. -/
def chunks : Str → List Str
  | [] => [[]]
  | c :: cs =>
    match chunks cs with
    | [] => []
    | w :: ws => if isSpaceCp c then [] :: w :: ws else (c :: w) :: ws

/-- `str.split()` with no separator: split on whitespace runs and drop the
empty chunks. -/
def pyWords (s : Str) : List Str := (chunks s).filter (fun w => w ≠ [])

/-- `' '.join(ws)`. -/
def joinSpace : List Str → Str
  | [] => []
  | [w] => w
  | w :: ws => w ++ spaceCp :: joinSpace ws

/-- `' '.join(s.split())`: collapse whitespace runs to single spaces. -/
def collapseWs (s : Str) : Str := joinSpace (pyWords s)

/-- The suffix vocabulary stripped by `normalize_name`, in source order:
`" jr"`, `" sr"`, `" ii"`, `" iii"`, `" iv"`, `" v"`. -/
def nameSuffixes : List Str :=
  [[32, 106, 114], [32, 115, 114], [32, 105, 105],
   [32, 105, 105, 105], [32, 105, 118], [32, 118]]

/-- One pass of the suffix-stripping loop body:
`if normalized.endswith(suffix): normalized = normalized[:-len(suffix)].strip()`. -/
def stripSuffix1 (s : Str) (suf : Str) : Str :=
  if suf <:+ s then pyStrip (s.take (s.length - suf.length)) else s

/-- The whole `for suffix in [...]` loop of `normalize_name`. -/
def stripSuffixes (s : Str) : Str := nameSuffixes.foldl stripSuffix1 s

/-- `normalize_name` (matching/fuzzy.py): lowercase, strip, collapse
whitespace, remove periods, then strip the suffix vocabulary. -/
def normalize_name (name : Str) : Str :=
  if name = [] then []
  else
    stripSuffixes ((collapseWs (pyStrip (pyLower name))).filter (fun c => c ≠ periodCp))

/-- `normalize_location` (matching/fuzzy.py): `None` on empty input, else
lowercase, strip, collapse whitespace, remove commas. -/
def normalize_location (place : Str) : Option Str :=
  if place = [] then none
  else some ((collapseWs (pyStrip (pyLower place))).filter (fun c => c ≠ commaCp))

/-- `fuzzy_match_name` (matching/fuzzy.py).  `backend` is
`fuzz.token_sort_ratio` when rapidfuzz is available (`some tsr`) and `none`
otherwise; the `threshold` parameter of the source is unused by its body and
omitted.  Scores are 0–100 rationals. -/
def fuzzy_match_name (backend : Option (Str → Str → ℚ))
    (name1 name2 : Str) (check_alternates : List Str) : ℚ :=
  if name1 = [] ∨ name2 = [] then 0
  else
    let n1 := normalize_name name1
    let n2 := normalize_name name2
    if n1 = n2 then 100
    else
      match backend with
      | some tsr =>
        check_alternates.foldl
          (fun best alt =>
            let a := normalize_name alt
            max (max best (tsr n1 a)) (tsr n2 a))
          (tsr n1 n2)
      | none => if n1 <:+: n2 ∨ n2 <:+: n1 then 70 else 0

/-- `fuzzy_match_location` (matching/fuzzy.py).  `backend` is
`fuzz.partial_ratio` when rapidfuzz is available; the unused `threshold`
parameter is omitted.  The `if not loc1_norm or not loc2_norm` guard treats
both `None` and the empty string as falsy. -/
def fuzzy_match_location (backend : Option (Str → Str → ℚ))
    (location1 location2 : Str) : ℚ :=
  if location1 = [] ∨ location2 = [] then 0
  else
    match normalize_location location1, normalize_location location2 with
    | some l1, some l2 =>
      if l1 = [] ∨ l2 = [] then 0
      else if l1 = l2 then 100
      else
        match backend with
        | some pr => pr l1 l2
        | none => if l1 <:+: l2 ∨ l2 <:+: l1 then 70 else 0
    | _, _ => 0

/-- Dictionary key `"name"`. -/
def nameKey : Str := [110, 97, 109, 101]

/-- Dictionary key `"birth_year"`. -/
def birthYearKey : Str := [98, 105, 114, 116, 104, 95, 121, 101, 97, 114]

/-- Dictionary key `"parents"`. -/
def parentsKey : Str := [112, 97, 114, 101, 110, 116, 115]

/-- Dictionary key `"location"`. -/
def locationKey : Str := [108, 111, 99, 97, 116, 105, 111, 110]

/-- The default weight dictionary of `compute_confidence_score`. -/
def defaultWeights : List (Str × ℚ) :=
  [(nameKey, 0.40), (birthYearKey, 0.20), (parentsKey, 0.20), (locationKey, 0.20)]

/-- Python `dict.update`: replace the value of an existing key in place,
append unknown keys at the end. -/
def dictUpdate (d : List (Str × ℚ)) (kvs : List (Str × ℚ)) : List (Str × ℚ) :=
  kvs.foldl
    (fun acc kv =>
      if acc.any (fun p => p.1 = kv.1) then
        acc.map (fun p => if p.1 = kv.1 then kv else p)
      else acc ++ [kv])
    d

/-- `d[k]` for the weight dictionary; the four factor keys are always present
after merging with the defaults, so the fallback value is never reached. -/
def dget (d : List (Str × ℚ)) (k : Str) : ℚ :=
  ((d.find? (fun p => p.1 = k)).map (fun p => p.2)).getD 0

/-- Python `round(x, 2)`.  `round` in Mathlib rounds half up while Python
rounds half to even; every rounding proved about in this file is exact at two
decimals, where the conventions agree. -/
def pyRound2 (q : ℚ) : ℚ := round (q * 100) / 100

/-- `compute_confidence_score` (matching/fuzzy.py). -/
def compute_confidence_score (name_score : ℚ) (birth_year_diff : Option ℤ)
    (parent_match : Bool) (location_score : Option ℚ)
    (weights : Option (List (Str × ℚ))) : ℚ :=
  let w := match weights with
    | some ws => dictUpdate defaultWeights ws
    | none => defaultWeights
  let confidence := name_score * dget w nameKey
  let confidence := confidence +
    (match birth_year_diff with
     | some d => if d = 0 then (100 : ℚ) else if d ≤ 2 then 90 else if d ≤ 5 then 70 else 0
     | none => 50) * dget w birthYearKey
  let confidence := confidence + (if parent_match then (100 : ℚ) else 50) * dget w parentsKey
  let confidence := confidence +
    (match location_score with
     | some ls => ls
     | none => 50) * dget w locationKey
  pyRound2 confidence

/-- Association-list lookup modelling `dict.__getitem__` / `dict.get`
(Python dicts are insertion-ordered; keys are unique in every reachable
registry state, so first-match lookup is exact). -/
def alookup {β : Type} : List (Str × β) → Str → Option β
  | [], _ => none
  | p :: ps, k => if p.1 = k then some p.2 else alookup ps k

/-- `HistoricalName` (locations/models.py); the optional metadata fields do
not feed the resolution engine. -/
structure HistoricalName where
  name : Str
  date_range : Str
  civilization : Option Str
  note : Option Str
deriving DecidableEq

/-- `Geocode` (locations/models.py): coordinates, stored as rationals. -/
structure Geocode where
  latitude : ℚ
  longitude : ℚ
deriving DecidableEq

/-- `LocationHierarchy` (locations/models.py), restricted to the components
read by the registry's search operations. -/
structure LocationHierarchy where
  locality : Option Str
  county : Option Str
  state : Option Str
  country : Option Str
deriving DecidableEq

/-- `Location` (locations/models.py), restricted to the fields the registry's
CRUD/search operations read (codes, sources, bounds and free-text metadata are
opaque to the modelled operations). -/
structure Location where
  location_id : Str
  modern_name : Str
  historical_names : List HistoricalName
  alternate_spellings : List Str
  geocode : Option Geocode
  hierarchy : Option LocationHierarchy
deriving DecidableEq

/-- The in-memory collection `LocationRegistry.locations`: an
insertion-ordered map from id to record. -/
abbrev LocMap := List (Str × Location)

/-- The name-index keys contributed by one location in
`LocationRegistry._rebuild_indexes`: lowercased modern name, then lowercased
historical names, then lowercased alternate spellings, in source order. -/
def locNameKeys (l : Location) : List Str :=
  pyLower l.modern_name ::
    (l.historical_names.map (fun h => pyLower h.name) ++
      l.alternate_spellings.map pyLower)

/-- The id list stored under `key` in `LocationRegistry._name_index` after a
rebuild: iterating the collection in insertion order, each location appends
its id once per matching key occurrence (`setdefault(...).append`). -/
def locIndexIds (m : LocMap) (key : Str) : List Str :=
  m.flatMap (fun p => ((locNameKeys p.2).filter (fun k => k = key)).map (fun _ => p.1))

/-- `LocationRegistry.search_exact`: look the lowercased query up in the name
index and dereference the ids (every indexed id is present in the
collection, so the `filterMap` dereference never drops an id). -/
def search_exact (m : LocMap) (name : Str) : List Location :=
  (locIndexIds m (pyLower name)).filterMap (fun i => alookup m i)

/-- `LocationRegistry.create`: raise (`ValueError`) on a duplicate id, else
insert at the end of the collection. -/
def create (m : LocMap) (l : Location) : Except Unit LocMap :=
  if (alookup m l.location_id).isSome then Except.error ()
  else Except.ok (m ++ [(l.location_id, l)])

/-- `LocationRegistry.read`. -/
def regRead (m : LocMap) (location_id : Str) : Option Location := alookup m location_id

/-- `LocationRegistry.update`: raise on a missing id, else replace the record
in place (a Python dict keeps the original insertion position). -/
def update (m : LocMap) (l : Location) : Except Unit LocMap :=
  if (alookup m l.location_id).isSome then
    Except.ok (m.map (fun p => if p.1 = l.location_id then (p.1, l) else p))
  else Except.error ()

/-- The filter predicate of `delete`: keep the pairs whose key differs. -/
def keepOther {β : Type} (i : Str) (p : Str × β) : Bool := p.1 ≠ i

/-- `LocationRegistry.delete`: returns whether the id was found; never
raises. -/
def delete (m : LocMap) (location_id : Str) : Bool × LocMap :=
  if (alookup m location_id).isSome then
    (true, m.filter (keepOther location_id))
  else (false, m)

/-- One registry mutation. -/
inductive RegOp where
  | create (l : Location)
  | update (l : Location)
  | delete (location_id : Str)
deriving DecidableEq

/-- The registry state after one mutation: a raised `ValueError` leaves the
state unchanged (both `create` and `update` raise before mutating). -/
def applyOp (m : LocMap) : RegOp → LocMap
  | RegOp.create l => match create m l with
    | Except.ok m2 => m2
    | Except.error _ => m
  | RegOp.update l => match update m l with
    | Except.ok m2 => m2
    | Except.error _ => m
  | RegOp.delete i => (delete m i).2

/-- The registry state after a sequence of mutations. -/
def applyOps (m : LocMap) (ops : List RegOp) : LocMap := ops.foldl applyOp m

/-- Modelled from the spec (registry invariant): the record a single
identifier should hold after one committed mutation — a `create` commits only
when the id is new, an `update` only when the id exists, a `delete` always
clears it, and mutations of other identifiers are invisible. -/
def lastCommitted (i : Str) (cur : Option Location) : RegOp → Option Location
  | RegOp.create l =>
    if l.location_id = i then (if cur.isSome then cur else some l) else cur
  | RegOp.update l =>
    if l.location_id = i then (if cur.isSome then some l else cur) else cur
  | RegOp.delete j => if j = i then none else cur

/-- Registry well-formedness: distinct ids, and every record is stored under
its own `location_id` (both hold in every state the Python class can reach,
since records are always keyed by `location.location_id`). -/
def LocWF (m : LocMap) : Prop :=
  (m.map (fun p => p.1)).Nodup ∧ ∀ p ∈ m, p.1 = p.2.location_id

/-- Python `math.radians`. -/
noncomputable def radiansR (d : ℝ) : ℝ := d * Real.pi / 180

/-- The haversine great-circle distance computed inline by
`LocationRegistry.search_by_coordinates` (Earth radius 6371 km);
arguments are query latitude/longitude then record latitude/longitude,
in degrees. -/
noncomputable def haversine (lat1 lon1 lat2 lon2 : ℝ) : ℝ :=
  let rlat1 := radiansR lat1
  let rlon1 := radiansR lon1
  let rlat2 := radiansR lat2
  let rlon2 := radiansR lon2
  let dlat := rlat2 - rlat1
  let dlon := rlon2 - rlon1
  let a := Real.sin (dlat / 2) ^ 2 +
    Real.cos rlat1 * Real.cos rlat2 * Real.sin (dlon / 2) ^ 2
  6371 * (2 * Real.arcsin (Real.sqrt a))

/-- `LocationRegistry.search_by_coordinates`: keep the records that have
coordinates and lie within `radius_km` of the query point, paired with their
distance, then sort ascending by distance (`list.sort` is a stable sort;
`List.insertionSort` with this relation is extensionally the same sort). -/
noncomputable def search_by_coordinates (m : LocMap)
    (latitude longitude radius_km : ℝ) : List (Location × ℝ) :=
  let results := m.filterMap (fun p =>
    match p.2.geocode with
    | none => none
    | some g =>
      let distance := haversine latitude longitude (g.latitude : ℝ) (g.longitude : ℝ)
      if distance ≤ radius_km then some (p.2, distance) else none)
  results.insertionSort (fun a b => a.2 ≤ b.2)

/-- `SpellingVariant` (names/models.py). -/
structure SpellingVariant where
  form : Str
  context : Option Str
  time_period : Option Str
  region : Option Str
deriving DecidableEq

/-- `CrossLanguageForm` (names/models.py). -/
structure CrossLanguageForm where
  form : Str
  language : Str
  script : Option Str
  is_cognate : Bool
deriving DecidableEq

/-- `PhoneticEncoding` (names/models.py). -/
structure PhoneticEncoding where
  value : Str
  method : Str
deriving DecidableEq

/-- `GeographicUsage` (names/models.py). -/
structure GeographicUsage where
  region : Str
  country : Option Str
  time_period : Option Str
  frequency : Option Str
  location_id : Option Str
deriving DecidableEq

/-- `NameEntry` (names/models.py), restricted to the fields the registry and
resolver operations read (etymology, timestamps and other free-text metadata
are opaque to the modelled operations).  `confidence` is the 0.0–1.0 validity
confidence of the entry itself. -/
structure NameEntry where
  id : Str
  name : Str
  name_type : Str
  spelling_variants : List SpellingVariant
  cross_language_forms : List CrossLanguageForm
  phonetic : List PhoneticEncoding
  geographic_usage : List GeographicUsage
  confidence : Option ℚ
deriving DecidableEq

/-- `NameQueryResult` (names/models.py). -/
structure NameQueryResult where
  entry : NameEntry
  confidence : ℚ
  match_type : Str
  name_confidence : Option ℚ
deriving DecidableEq

/-- Match-type tag `"exact"`. -/
def exactTag : Str := [101, 120, 97, 99, 116]

/-- Match-type tag `"variant"`. -/
def variantTag : Str := [118, 97, 114, 105, 97, 110, 116]

/-- Match-type tag `"cognate"`. -/
def cognateTag : Str := [99, 111, 103, 110, 97, 116, 101]

/-- Match-type tag `"fuzzy"`. -/
def fuzzyTag : Str := [102, 117, 122, 122, 121]

/-- The in-memory collection `NameRegistry.entries`. -/
abbrev NameMap := List (Str × NameEntry)

/-- The name-index keys contributed by one entry in
`NameRegistry._rebuild_indexes`: lowercased primary name, then lowercased
spelling-variant forms, in source order. -/
def entryNameKeys (e : NameEntry) : List Str :=
  pyLower e.name :: e.spelling_variants.map (fun v => pyLower v.form)

/-- The id list stored under `key` in `NameRegistry._name_index`. -/
def nameIndexIds (m : NameMap) (key : Str) : List Str :=
  m.flatMap (fun p => ((entryNameKeys p.2).filter (fun k => k = key)).map (fun _ => p.1))

/-- `NameRegistry.search_exact`. -/
def name_search_exact (m : NameMap) (name : Str) : List NameEntry :=
  (nameIndexIds m (pyLower name)).filterMap (fun i => alookup m i)

/-- The cognate-index keys contributed by one entry: lowercased
cross-language forms (indexed whether or not `is_cognate` is set). -/
def entryCognateKeys (e : NameEntry) : List Str :=
  e.cross_language_forms.map (fun c => pyLower c.form)

/-- The id list stored under `key` in `NameRegistry._cognate_index`. -/
def cognateIndexIds (m : NameMap) (key : Str) : List Str :=
  m.flatMap (fun p => ((entryCognateKeys p.2).filter (fun k => k = key)).map (fun _ => p.1))

/-- `NameRegistry.search_cognates`. -/
def name_search_cognates (m : NameMap) (name : Str) : List NameEntry :=
  (cognateIndexIds m (pyLower name)).filterMap (fun i => alookup m i)

/-- `entry.confidence if entry.confidence is not None else 0.5`. -/
def nameConf (e : NameEntry) : ℚ :=
  match e.confidence with
  | some c => c
  | none => 0.5

/-- One tier loop of `NameRegistry.search`: walk the candidate entries in
order, skip an entry when `skip seen entry` holds, otherwise append `mk entry`
to the results and the entry id to the seen set. -/
def tierFold (cands : List NameEntry) (skip : List Str → NameEntry → Bool)
    (mk : NameEntry → NameQueryResult)
    (acc : List NameQueryResult × List Str) : List NameQueryResult × List Str :=
  cands.foldl
    (fun a e => if skip a.2 e then a else (a.1 ++ [mk e], a.2 ++ [e.id]))
    acc

/-- Does `name_type` filter out this entry
(`if name_type and entry.name_type != name_type: continue`)? -/
def ntSkip (name_type : Option Str) (e : NameEntry) : Bool :=
  match name_type with
  | some t => e.name_type ≠ t
  | none => false

/-- The sort key of `NameRegistry.search`:
`min(r.confidence, r.name_confidence) if r.name_confidence else r.confidence`
(both `None` and `0.0` are falsy). -/
def searchSortKey (r : NameQueryResult) : ℚ :=
  match r.name_confidence with
  | some nc => if nc = 0 then r.confidence else min r.confidence nc
  | none => r.confidence

/-- `NameRegistry.search`: exact tier (confidence 1.0), variant tier
(confidence 0.9, only entries not already claimed), cognate tier
(confidence 0.8), then a stable descending sort on `searchSortKey`. -/
def name_registry_search (m : NameMap) (query : Str)
    (include_variants include_cognates : Bool) (name_type : Option Str) :
    List NameQueryResult :=
  let exact := tierFold (name_search_exact m query)
    (fun seen e => ntSkip name_type e || e.id ∈ seen)
    (fun e => ⟨e, 1, exactTag, some (nameConf e)⟩) ([], [])
  let afterVariants :=
    if include_variants then
      tierFold (name_search_exact m query)
        (fun seen e => e.id ∈ seen || ntSkip name_type e ||
          !(e.spelling_variants.any (fun v => pyLower v.form = pyLower query)))
        (fun e => ⟨e, 0.9, variantTag, some (nameConf e)⟩) exact
    else exact
  let afterCognates :=
    if include_cognates then
      tierFold (name_search_cognates m query)
        (fun seen e => e.id ∈ seen || ntSkip name_type e)
        (fun e => ⟨e, 0.8, cognateTag, some (nameConf e)⟩) afterVariants
    else afterVariants
  afterCognates.1.insertionSort (fun a b => searchSortKey b ≤ searchSortKey a)

/-- `NameRegistry.list_all`. -/
def list_all (m : NameMap) (name_type : Option Str) : List NameEntry :=
  match name_type with
  | some t => (m.map (fun p => p.2)).filter (fun e => e.name_type = t)
  | none => m.map (fun p => p.2)

/-- `NameResolver._fuzzy_search`: scan the whole collection, skip excluded
ids, keep entries whose similarity to the query reaches the threshold with
the threshold-scaled confidence `0.5 + (sim - t)/(1 - t) * 0.3` and tag
`"fuzzy"`.  `sim` models `difflib.SequenceMatcher(None, a, b).ratio()`. -/
def resolver_fuzzy_search (m : NameMap) (name : Str) (name_type : Option Str)
    (threshold : ℚ) (exclude : List Str) (sim : Str → Str → ℚ) :
    List NameQueryResult :=
  (list_all m name_type).filterMap (fun e =>
    if e.id ∈ exclude then none
    else
      let similarity := sim (pyLower name) (pyLower e.name)
      if threshold ≤ similarity then
        some ⟨e, 0.5 + (similarity - threshold) / (1 - threshold) * 0.3, fuzzyTag, none⟩
      else none)

/-- `NameResolver.resolve`: the registry's tiered search (variants always
included, cognates iff `cross_language`), extended with fuzzy matches for
not-yet-seen ids when `fuzzy` is set, then a stable descending sort on the
`confidence` field. -/
def resolver_resolve (m : NameMap) (name : Str) (name_type : Option Str)
    (fuzzy cross_language : Bool) (fuzzy_threshold : ℚ)
    (sim : Str → Str → ℚ) : List NameQueryResult :=
  let results := name_registry_search m name true cross_language name_type
  let results :=
    if fuzzy then
      results ++ resolver_fuzzy_search m name name_type fuzzy_threshold
        (results.map (fun r => r.entry.id)) sim
    else results
  results.insertionSort (fun a b => b.confidence ≤ a.confidence)

/-- Merge-strategy tag `"accumulate"`. -/
def accumulateTag : Str := [97, 99, 99, 117, 109, 117, 108, 97, 116, 101]

/-- Merge-strategy tag `"replace"`. -/
def replaceTag : Str := [114, 101, 112, 108, 97, 99, 101]

/-- The dedup key `(gu.location_id, gu.region, gu.country, gu.time_period)`
used by `merge_geographic_usage`'s accumulate strategy. -/
def guKey (g : GeographicUsage) : Option Str × Str × Option Str × Option Str :=
  (g.location_id, g.region, g.country, g.time_period)

/-- `NameRegistry.merge_geographic_usage`: raise when the entry is missing or
the strategy is unsupported; `replace` overwrites the usage list; `accumulate`
appends the new entries whose key is absent from the index built over the
original list (the index is not refreshed inside the loop). -/
def merge_geographic_usage (m : NameMap) (name_id : Str)
    (usage_entries : List GeographicUsage) (merge_strategy : Str) :
    Except Unit NameMap :=
  match alookup m name_id with
  | none => Except.error ()
  | some e =>
    if merge_strategy ≠ accumulateTag ∧ merge_strategy ≠ replaceTag then
      Except.error ()
    else
      let newUsage :=
        if merge_strategy = replaceTag then usage_entries
        else
          e.geographic_usage ++
            usage_entries.filter
              (fun g => !((e.geographic_usage.map guKey).contains (guKey g)))
      Except.ok (m.map (fun p =>
        if p.1 = name_id then (p.1, { p.2 with geographic_usage := newUsage }) else p))

/-- Reference definition following the claim's words (C4): the date-proximity
band — 0 ↦ 100, 1–2 ↦ 90, 3–5 ↦ 70, more than 5 ↦ 0, absent ↦ neutral 50. -/
def bandSpec : Option ℤ → ℚ
  | some x =>
    if x = 0 then 100
    else if 1 ≤ x ∧ x ≤ 2 then 90
    else if 3 ≤ x ∧ x ≤ 5 then 70
    else 0
  | none => 50

/-- The default weight of the name factor, read off the merged dictionary. -/
theorem dget_default_name : dget defaultWeights nameKey = 0.40 := rfl

/-- The default weight of the birth-year factor. -/
theorem dget_default_birth_year : dget defaultWeights birthYearKey = 0.20 := rfl

/-- The default weight of the parents factor. -/
theorem dget_default_parents : dget defaultWeights parentsKey = 0.20 := rfl

/-- The default weight of the location factor. -/
theorem dget_default_location : dget defaultWeights locationKey = 0.20 := rfl

/-- Claim C4: with default weights, `compute_confidence_score` equals the
rounded weighted sum `0.40·name + 0.20·band(diff) + 0.20·(100 if parents else
50) + 0.20·(location or 50)` with the claimed banding (for the non-negative
year differences the band is defined on), and the concrete scenario
`(95, 2, parents, 85)` scores exactly 93. -/
theorem c4_confidence_formula (ns : ℚ) (d : Option ℤ) (pm : Bool) (ls : Option ℚ)
    (hd : ∀ x ∈ d, 0 ≤ x) :
    compute_confidence_score ns d pm ls none =
      pyRound2 (0.40 * ns + 0.20 * bandSpec d +
        0.20 * (if pm then 100 else 50) + 0.20 * (ls.getD 50)) ∧
    compute_confidence_score 95 (some 2) true (some 85) none = 93 := by
  constructor
  · show pyRound2 _ = pyRound2 _
    congr 1
    rw [dget_default_name, dget_default_birth_year, dget_default_parents,
      dget_default_location]
    cases d with
    | none =>
      cases ls <;>
        · simp only [bandSpec, Option.getD_none, Option.getD_some]
          split_ifs <;> ring
    | some x =>
      have hx : 0 ≤ x := hd x rfl
      cases ls <;>
        · simp only [bandSpec, Option.getD_none, Option.getD_some]
          split_ifs <;> first | ring1 | (exfalso; omega)
  · show pyRound2 (95 * dget defaultWeights nameKey +
      (if (2:ℤ) = 0 then (100:ℚ) else if (2:ℤ) ≤ 2 then 90 else if (2:ℤ) ≤ 5 then 70 else 0) *
        dget defaultWeights birthYearKey +
      (100:ℚ) * dget defaultWeights parentsKey +
      (85:ℚ) * dget defaultWeights locationKey) = 93
    rw [dget_default_name, dget_default_birth_year, dget_default_parents,
      dget_default_location]
    norm_num [pyRound2, round_eq]

/-- Witness for C4 at the claim's concrete scenario. -/
theorem c4_confidence_formula_witness :
    (∀ x ∈ (some (2 : ℤ)), (0 : ℤ) ≤ x) ∧
      compute_confidence_score 95 (some 2) true (some 85) none = 93 :=
  ⟨by simp, (c4_confidence_formula 95 (some 2) true (some 85) (by simp)).2⟩

/-- Looking an id up after deleting it finds nothing. -/
theorem alookup_filter_self {β : Type} (m : List (Str × β)) (i : Str) :
    alookup (m.filter (keepOther i)) i = none := by
  induction m with
  | nil => rfl
  | cons p ps ih =>
    rw [List.filter_cons]
    by_cases hp : p.1 = i
    · have hk : keepOther i p = false := by simp [keepOther, hp]
      rw [hk]
      simpa using ih
    · have hk : keepOther i p = true := by simp [keepOther, hp]
      rw [hk]
      simpa [alookup, hp] using ih

/-- Deleting one id does not change the binding of any other id. -/
theorem alookup_filter_other {β : Type} (m : List (Str × β)) (i j : Str)
    (h : j ≠ i) : alookup (m.filter (keepOther i)) j = alookup m j := by
  induction m with
  | nil => rfl
  | cons p ps ih =>
    rw [List.filter_cons]
    by_cases hp : p.1 = i
    · have hk : keepOther i p = false := by simp [keepOther, hp]
      have hpj : ¬ (p.1 = j) := by rw [hp]; exact fun hc => h hc.symm
      rw [hk]
      simp only [Bool.false_eq_true, if_false]
      rw [ih, alookup, if_neg hpj]
    · have hk : keepOther i p = true := by simp [keepOther, hp]
      rw [hk]
      simp only [if_true]
      by_cases hpj : p.1 = j
      · simp [alookup, hpj]
      · simp only [alookup, if_neg hpj]
        exact ih

/-- Claim C9: `create` raises exactly on a duplicate id and a raising
`create` leaves the registry (hence every index derived from it) unchanged;
`delete` returns whether the id was present — it never raises, returning
`false` on an absent id — and after `delete i` the id `i` reads as absent
while every other id reads as before. -/
theorem c9_crud_error_contract (m : LocMap) (l : Location) (i j : Str) :
    (create m l = Except.error () ↔ (alookup m l.location_id).isSome = true) ∧
    ((alookup m l.location_id).isSome = true → applyOp m (RegOp.create l) = m) ∧
    ((delete m i).1 = (alookup m i).isSome) ∧
    (regRead (delete m i).2 j = if j = i then none else regRead m j) := by
  refine ⟨?_, ?_, ?_, ?_⟩
  · unfold create
    by_cases h : (alookup m l.location_id).isSome <;> simp [h]
  · intro h
    simp [applyOp, create, h]
  · unfold delete
    by_cases h : (alookup m i).isSome <;> simp [h]
  · unfold delete regRead
    by_cases h : (alookup m i).isSome
    · by_cases hj : j = i
      · subst hj; simp [h, alookup_filter_self]
      · simp [h, hj, alookup_filter_other m i j hj]
    · have hn : alookup m i = none := by
        cases hc : alookup m i
        · rfl
        · rw [hc] at h; simp at h
      by_cases hj : j = i
      · subst hj; simp [h, hn]
      · simp [h, hj]

/-- A concrete location for the C9 witness. -/
def locW : Location := ⟨[105, 100], [88], [], [], none, none⟩

/-- A one-record registry for the C9 witness. -/
def mW : LocMap := [([105, 100], locW)]

/-- Witness for C9: creating a duplicate of the stored record leaves the
registry unchanged, and deleting the stored id makes it read as absent. -/
theorem c9_crud_error_contract_witness :
    applyOp mW (RegOp.create locW) = mW ∧
      regRead (delete mW [105, 100]).2 [105, 100] = none := by
  refine ⟨(c9_crud_error_contract mW locW [105, 100] [105, 100]).2.1 (by decide), ?_⟩
  have h := (c9_crud_error_contract mW locW [105, 100] [105, 100]).2.2.2
  simpa using h

/-- Merging a singleton unknown-key weight dictionary appends the unknown key
after the four defaults. -/
theorem dictUpdate_unknown (k : Str) (v : ℚ)
    (hk : k ≠ nameKey ∧ k ≠ birthYearKey ∧ k ≠ parentsKey ∧ k ≠ locationKey) :
    dictUpdate defaultWeights [(k, v)] = defaultWeights ++ [(k, v)] := by
  obtain ⟨h1, h2, h3, h4⟩ := hk
  simp [dictUpdate, defaultWeights, Ne.symm h1, Ne.symm h2, Ne.symm h3, Ne.symm h4]

/-- Appending an unknown key to the weight dictionary changes none of the four
factor weights. -/
theorem dget_append_unknown (k : Str) (v : ℚ) (key : Str)
    (hmem : (defaultWeights.find? (fun p => p.1 = key)).isSome = true) :
    dget (defaultWeights ++ [(k, v)]) key = dget defaultWeights key := by
  unfold dget
  rw [List.find?_append]
  cases hf : defaultWeights.find? (fun p => p.1 = key)
  · rw [hf] at hmem; simp at hmem
  · simp [Option.orElse]

/-- Claim C10 (amended): `merge_geographic_usage` on an existing entry with an
unsupported strategy raises; `compute_confidence_score` with an unknown weight
key does not raise — the key is merged into the dictionary, ignored by the
four factor lookups, and the score is exactly the default-weight score. -/
theorem c10_invalid_configuration (m : NameMap) (name_id : Str)
    (usage : List GeographicUsage) (strat : Str) (ns : ℚ) (d : Option ℤ)
    (pm : Bool) (ls : Option ℚ) (k : Str) (v : ℚ)
    (hpresent : (alookup m name_id).isSome = true)
    (hstrat1 : strat ≠ accumulateTag) (hstrat2 : strat ≠ replaceTag)
    (hk : k ≠ nameKey ∧ k ≠ birthYearKey ∧ k ≠ parentsKey ∧ k ≠ locationKey) :
    merge_geographic_usage m name_id usage strat = Except.error () ∧
    compute_confidence_score ns d pm ls (some [(k, v)]) =
      compute_confidence_score ns d pm ls none := by
  constructor
  · rcases hc : alookup m name_id with _ | e
    · rw [hc] at hpresent; simp at hpresent
    · simp only [merge_geographic_usage, hc]
      rw [if_pos ⟨hstrat1, hstrat2⟩]
  · simp only [compute_confidence_score]
    rw [dictUpdate_unknown k v hk]
    rw [dget_append_unknown k v nameKey (by decide),
      dget_append_unknown k v birthYearKey (by decide),
      dget_append_unknown k v parentsKey (by decide),
      dget_append_unknown k v locationKey (by decide)]

/-- A concrete entry and registry for the C10 witness. -/
def entryW : NameEntry := ⟨[101], [110], [116], [], [], [], [], none⟩

/-- A one-entry name registry for the C10 witness. -/
def mNW : NameMap := [([101], entryW)]

/-- Witness for C10: strategy `"x"` on the stored entry raises, and the
unknown weight key `"b"` leaves the score at its default-weight value. -/
theorem c10_invalid_configuration_witness :
    merge_geographic_usage mNW [101] [] [120] = Except.error () ∧
    compute_confidence_score 50 none false none (some [([98], 7)]) =
      compute_confidence_score 50 none false none none :=
  c10_invalid_configuration mNW [101] [] [120] 50 none false none [98] 7
    (by decide) (by decide) (by decide) (by decide)

/-- Counterexample to C10 as stated: `compute_confidence_score` with the
unknown weight key `"b"` does not raise any error — the embedded function is
total and the call returns the ordinary neutral score 50. -/
theorem c10_counterexample :
    compute_confidence_score 50 none false none (some [([98], 7)]) = 50 := by
  have h := (c10_invalid_configuration mNW [101] [] [120] 50 none false none [98] 7
    (by decide) (by decide) (by decide) (by decide)).2
  rw [h]
  simp only [compute_confidence_score]
  rw [dget_default_name, dget_default_birth_year, dget_default_parents,
    dget_default_location]
  norm_num [pyRound2, round_eq]

/-- Reference definition following the claim's words (C6/C7): the degraded
fallback contract on a pair of normalized strings — 100 when equal, 70 on
substring containment in either direction, 0 otherwise. -/
def fallbackSpec (a b : Str) : ℚ :=
  if a = b then 100 else if a <:+: b ∨ b <:+: a then 70 else 0

/-- Claim C6 (amended): with the backend absent and non-empty inputs,
`fuzzy_match_name` realises the fallback contract on the normalized names,
and `fuzzy_match_location` realises it on the normalized locations except
that a location whose normalized form is empty short-circuits to 0 (the
falsy-string guard), rather than scoring 100/70 via the empty string. -/
theorem c6_fallback_contract (n1 n2 l1 l2 : Str)
    (h1 : n1 ≠ []) (h2 : n2 ≠ []) (h3 : l1 ≠ []) (h4 : l2 ≠ []) :
    fuzzy_match_name none n1 n2 [] =
      fallbackSpec (normalize_name n1) (normalize_name n2) ∧
    fuzzy_match_location none l1 l2 =
      (if (normalize_location l1).getD [] = [] ∨ (normalize_location l2).getD [] = []
       then 0
       else fallbackSpec ((normalize_location l1).getD []) ((normalize_location l2).getD [])) := by
  constructor
  · simp only [fuzzy_match_name, h1, h2, false_or, if_neg, fallbackSpec]
    by_cases heq : normalize_name n1 = normalize_name n2
    · simp [heq]
    · simp [heq]
  · have e1 : normalize_location l1 =
        some ((collapseWs (pyStrip (pyLower l1))).filter (fun c => c ≠ commaCp)) := by
      simp [normalize_location, h3]
    have e2 : normalize_location l2 =
        some ((collapseWs (pyStrip (pyLower l2))).filter (fun c => c ≠ commaCp)) := by
      simp [normalize_location, h4]
    simp only [fuzzy_match_location, h3, h4, false_or, e1, e2, Option.getD_some,
      fallbackSpec]
    by_cases hemp : (collapseWs (pyStrip (pyLower l1))).filter (fun c => c ≠ commaCp) = [] ∨
        (collapseWs (pyStrip (pyLower l2))).filter (fun c => c ≠ commaCp) = []
    · simp [hemp]
    · by_cases heq : (collapseWs (pyStrip (pyLower l1))).filter (fun c => c ≠ commaCp) =
          (collapseWs (pyStrip (pyLower l2))).filter (fun c => c ≠ commaCp)
      · simp [hemp, heq]
      · simp [hemp, heq]

/-- Witness for C6 on the concrete locations `"paris"` and `"paris france"`
and names `"ann"`, `"an n"`. -/
theorem c6_fallback_contract_witness :
    fuzzy_match_name none [97, 110, 110] [97, 110, 32, 110] [] =
      fallbackSpec (normalize_name [97, 110, 110]) (normalize_name [97, 110, 32, 110]) ∧
    fuzzy_match_location none [112, 97, 114, 105, 115]
        [112, 97, 114, 105, 115, 32, 102, 114, 97, 110, 99, 101] =
      (if (normalize_location [112, 97, 114, 105, 115]).getD [] = [] ∨
          (normalize_location [112, 97, 114, 105, 115, 32, 102, 114, 97, 110, 99, 101]).getD [] = []
       then 0
       else fallbackSpec ((normalize_location [112, 97, 114, 105, 115]).getD [])
        ((normalize_location [112, 97, 114, 105, 115, 32, 102, 114, 97, 110, 99, 101]).getD [])) :=
  c6_fallback_contract [97, 110, 110] [97, 110, 32, 110] [112, 97, 114, 105, 115]
    [112, 97, 114, 105, 115, 32, 102, 114, 97, 110, 99, 101]
    (by decide) (by decide) (by decide) (by decide)

/-- Counterexample to C6 as stated: the single-space location `" "` is a
non-empty input whose normalized form is the empty string; the claimed
contract scores the pair `(" ", " ")` at 100 (equal after normalization), but
`fuzzy_match_location` returns 0. -/
theorem c6_counterexample :
    fuzzy_match_location none [32] [32] = 0 ∧
    fallbackSpec ((normalize_location [32]).getD []) ((normalize_location [32]).getD []) = 100 := by
  constructor
  · rfl
  · rfl

/-- Reference definition following the claim's words (C7): the maximum score
over the primary comparison and the comparisons of either normalized name
against each normalized alternate form. -/
def altMaxSpec (score : Str → Str → ℚ) (n1 n2 : Str) (alts : List Str) : ℚ :=
  (alts.flatMap (fun alt =>
      [score n1 (normalize_name alt), score n2 (normalize_name alt)])).foldl
    max (score n1 n2)

/-- Folding `max` over elements that never exceed the seed returns the seed. -/
theorem foldl_max_of_le (l : List ℚ) (seed : ℚ) (h : ∀ x ∈ l, x ≤ seed) :
    l.foldl max seed = seed := by
  induction l with
  | nil => rfl
  | cons x xs ih =>
    have hx : max seed x = seed := max_eq_left (h x (List.mem_cons_self x xs))
    simp only [List.foldl_cons, hx]
    exact ih (fun y hy => h y (List.mem_cons_of_mem x hy))

/-- The alternate-checking fold of `fuzzy_match_name` is the plain `max` fold
over the flattened comparison list. -/
theorem foldl_pair_max (f g : Str → ℚ) (alts : List Str) (seed : ℚ) :
    (alts.flatMap (fun a => [f a, g a])).foldl max seed =
      alts.foldl (fun best a => max (max best (f a)) (g a)) seed := by
  induction alts generalizing seed with
  | nil => rfl
  | cons a l ih => simp only [List.flatMap_cons, List.foldl_cons, List.foldl_append,
      List.cons_append, List.nil_append, List.foldl_cons, List.foldl_nil, ih]

/-- Claim C7 (amended): with the high-fidelity backend present (scores bounded
by 100 and equal to 100 on identical inputs), `fuzzy_match_name` returns the
maximum over the primary and all alternate-form comparisons; with the backend
absent, the alternate list is ignored entirely. -/
theorem c7_alternate_maximum (tsr : Str → Str → ℚ) (n1 n2 : Str) (alts : List Str)
    (hb : ∀ a b, tsr a b ≤ 100) (hr : ∀ a, tsr a a = 100)
    (h1 : n1 ≠ []) (h2 : n2 ≠ []) :
    fuzzy_match_name (some tsr) n1 n2 alts =
      altMaxSpec tsr (normalize_name n1) (normalize_name n2) alts ∧
    fuzzy_match_name none n1 n2 alts = fuzzy_match_name none n1 n2 [] := by
  constructor
  · have hcond : ¬ (n1 = [] ∨ n2 = []) := by simp [h1, h2]
    simp only [fuzzy_match_name, if_neg hcond]
    by_cases heq : normalize_name n1 = normalize_name n2
    · rw [if_pos heq]
      unfold altMaxSpec
      rw [heq, hr]
      exact (foldl_max_of_le _ 100 (fun x hx => by
        rcases List.mem_flatMap.mp hx with ⟨a, _, hmem⟩
        simp only [List.mem_cons, List.not_mem_nil, or_false] at hmem
        rcases hmem with h | h
        · rw [h]; exact hb _ _
        · rw [h]; exact hb _ _)).symm
    · rw [if_neg heq]
      unfold altMaxSpec
      rw [foldl_pair_max]
  · rfl

/-- Witness for C7 with the constant backend 100 and names `"a"`, `"b"`. -/
theorem c7_alternate_maximum_witness :
    fuzzy_match_name (some (fun _ _ => 100)) [97] [98] [[97]] =
      altMaxSpec (fun _ _ => 100) (normalize_name [97]) (normalize_name [98]) [[97]] ∧
    fuzzy_match_name none [97] [98] [[97]] = fuzzy_match_name none [97] [98] [] :=
  c7_alternate_maximum (fun _ _ => 100) [97] [98] [[97]]
    (fun _ _ => le_refl 100) (fun _ => rfl) (by decide) (by decide)

/-- Counterexample to C7 as stated: in the fallback configuration the names
`"a"` and `"b"` with alternate list `["a"]` score 0 — the alternate-form
comparisons (one of which is an exact match worth 100 under the fallback
contract) are never consulted. -/
theorem c7_counterexample :
    fuzzy_match_name none [97] [98] [[97]] = 0 ∧
    altMaxSpec fallbackSpec (normalize_name [97]) (normalize_name [98]) [[97]] = 100 := by
  constructor
  · rfl
  · rfl

/-- The entry of the C3 scenario: primary name `"smith"`, name type
`"surname"`, spelling variant `"smyth"`. -/
def entrySmith : NameEntry :=
  ⟨[101, 49], [115, 109, 105, 116, 104], [115, 117, 114, 110, 97, 109, 101],
   [⟨[115, 109, 121, 116, 104], none, none, none⟩], [], [], [], none⟩

/-- A registry holding only `entrySmith`. -/
def mSmith : NameMap := [([101, 49], entrySmith)]

/-- Claim C3, evaluated at the failing input: searching the variant-only
query `"smyth"` with `include_variants` enabled returns the entry with
confidence 1.0 and match-type `"exact"` — not the claimed 0.9/`"variant"` —
because the exact tier iterates the name index, which already contains the
variant forms, and claims the id before the variant tier runs. -/
theorem c3_variant_tier_shadowed :
    name_registry_search mSmith [115, 109, 121, 116, 104] true false none =
      [⟨entrySmith, 1, exactTag, some 0.5⟩] := by
  rfl

/-- Everything a tier loop emits is either inherited from the accumulator or
built by `mk` from a candidate. -/
theorem tierFold_mem (cands : List NameEntry) (skip : List Str → NameEntry → Bool)
    (mk : NameEntry → NameQueryResult) (acc : List NameQueryResult × List Str) :
    ∀ r ∈ (tierFold cands skip mk acc).1, r ∈ acc.1 ∨ ∃ e ∈ cands, r = mk e := by
  induction cands generalizing acc with
  | nil => exact fun r hr => Or.inl hr
  | cons c cs ih =>
    intro r hr
    have hr' : r ∈ (tierFold cs skip mk
        (if skip acc.2 c then acc else (acc.1 ++ [mk c], acc.2 ++ [c.id]))).1 := by
      simpa only [tierFold, List.foldl_cons] using hr
    rcases ih _ r hr' with h | ⟨e, he, hre⟩
    · by_cases hs : skip acc.2 c
      · rw [if_pos hs] at h
        exact Or.inl h
      · rw [if_neg hs] at h
        rcases List.mem_append.mp h with h1 | h1
        · exact Or.inl h1
        · exact Or.inr ⟨c, List.mem_cons_self c cs, (List.mem_singleton.mp h1)⟩
    · exact Or.inr ⟨e, List.mem_cons_of_mem c he, hre⟩

/-- Every result of `NameRegistry.search` carries one of the three tier
confidences with its tier tag. -/
theorem name_registry_search_mem (m : NameMap) (q : Str)
    (iv ic : Bool) (nt : Option Str) :
    ∀ r ∈ name_registry_search m q iv ic nt,
      (r.confidence = 1 ∧ r.match_type = exactTag) ∨
      (r.confidence = 0.9 ∧ r.match_type = variantTag) ∨
      (r.confidence = 0.8 ∧ r.match_type = cognateTag) := by
  intro r hr
  simp only [name_registry_search] at hr
  have hr2 := (List.perm_insertionSort _ _).mem_iff.mp hr
  by_cases hic : ic <;> by_cases hiv : iv <;>
    simp only [hic, hiv, Bool.false_eq_true, if_true, if_false] at hr2
  · rcases tierFold_mem _ _ _ _ r hr2 with h1 | ⟨e, _, rfl⟩
    · rcases tierFold_mem _ _ _ _ r h1 with h2 | ⟨e, _, rfl⟩
      · rcases tierFold_mem _ _ _ _ r h2 with h3 | ⟨e, _, rfl⟩
        · exact absurd h3 (List.not_mem_nil r)
        · exact Or.inl ⟨rfl, rfl⟩
      · exact Or.inr (Or.inl ⟨rfl, rfl⟩)
    · exact Or.inr (Or.inr ⟨rfl, rfl⟩)
  · rcases tierFold_mem _ _ _ _ r hr2 with h1 | ⟨e, _, rfl⟩
    · rcases tierFold_mem _ _ _ _ r h1 with h2 | ⟨e, _, rfl⟩
      · exact absurd h2 (List.not_mem_nil r)
      · exact Or.inl ⟨rfl, rfl⟩
    · exact Or.inr (Or.inr ⟨rfl, rfl⟩)
  · rcases tierFold_mem _ _ _ _ r hr2 with h1 | ⟨e, _, rfl⟩
    · rcases tierFold_mem _ _ _ _ r h1 with h2 | ⟨e, _, rfl⟩
      · exact absurd h2 (List.not_mem_nil r)
      · exact Or.inl ⟨rfl, rfl⟩
    · exact Or.inr (Or.inl ⟨rfl, rfl⟩)
  · rcases tierFold_mem _ _ _ _ r hr2 with h1 | ⟨e, _, rfl⟩
    · exact absurd h1 (List.not_mem_nil r)
    · exact Or.inl ⟨rfl, rfl⟩

/-- Every fuzzy-tier result carries the `"fuzzy"` tag and a threshold-scaled
confidence built from some similarity value produced by `sim`. -/
theorem resolver_fuzzy_search_mem (m : NameMap) (name : Str) (nt : Option Str)
    (threshold : ℚ) (exclude : List Str) (sim : Str → Str → ℚ) :
    ∀ r ∈ resolver_fuzzy_search m name nt threshold exclude sim,
      r.match_type = fuzzyTag ∧
      ∃ a b, threshold ≤ sim a b ∧
        r.confidence = 0.5 + (sim a b - threshold) / (1 - threshold) * 0.3 := by
  intro r hr
  rcases List.mem_filterMap.mp hr with ⟨e, _, hsome⟩
  by_cases hex : e.id ∈ exclude
  · rw [if_pos hex] at hsome
    cases hsome
  · rw [if_neg hex] at hsome
    by_cases hth : threshold ≤ sim (pyLower name) (pyLower e.name)
    · rw [if_pos hth] at hsome
      cases hsome
      exact ⟨rfl, pyLower name, pyLower e.name, hth, rfl⟩
    · rw [if_neg hth] at hsome
      cases hsome

/-- The threshold-scaled fuzzy confidence never exceeds 0.8 when similarities
are bounded by 1 and the threshold is below 1. -/
theorem fuzzy_confidence_le (threshold s : ℚ) (ht : threshold < 1) (hs : s ≤ 1) :
    0.5 + (s - threshold) / (1 - threshold) * 0.3 ≤ 0.8 := by
  have h0 : 0 < 1 - threshold := by linarith
  have hdiv : (s - threshold) / (1 - threshold) ≤ 1 := by
    rw [div_le_one h0]
    linarith
  have hmul := mul_le_mul_of_nonneg_right hdiv (by norm_num : (0 : ℚ) ≤ 0.3)
  rw [one_mul] at hmul
  linarith

/-- Every resolver result comes from the tiered registry search or (when
fuzzy matching is on) from the fuzzy scan. -/
theorem resolver_resolve_mem (m : NameMap) (name : Str) (nt : Option Str)
    (fz cl : Bool) (threshold : ℚ) (sim : Str → Str → ℚ) :
    ∀ r ∈ resolver_resolve m name nt fz cl threshold sim,
      r ∈ name_registry_search m name true cl nt ∨
      r ∈ resolver_fuzzy_search m name nt threshold
        ((name_registry_search m name true cl nt).map (fun x => x.entry.id)) sim := by
  intro r hr
  simp only [resolver_resolve] at hr
  have hr2 := (List.perm_insertionSort _ _).mem_iff.mp hr
  by_cases hfz : fz
  · simp only [hfz, if_true] at hr2
    exact List.mem_append.mp hr2
  · simp only [hfz, Bool.false_eq_true, if_false] at hr2
    exact Or.inl hr2

/-- Totality of the descending-confidence comparison used by the resolver. -/
instance : IsTotal NameQueryResult (fun a b => b.confidence ≤ a.confidence) :=
  ⟨fun a b => le_total b.confidence a.confidence⟩

/-- Transitivity of the descending-confidence comparison. -/
instance : IsTrans NameQueryResult (fun a b => b.confidence ≤ a.confidence) :=
  ⟨fun _ _ _ h1 h2 => le_trans h2 h1⟩

/-- Totality of the descending combined-key comparison used by
`NameRegistry.search`. -/
instance : IsTotal NameQueryResult (fun a b => searchSortKey b ≤ searchSortKey a) :=
  ⟨fun a b => le_total (searchSortKey b) (searchSortKey a)⟩

/-- Transitivity of the descending combined-key comparison. -/
instance : IsTrans NameQueryResult (fun a b => searchSortKey b ≤ searchSortKey a) :=
  ⟨fun _ _ _ h1 h2 => le_trans h2 h1⟩

/-- In a list sorted by descending confidence in which exact hits score 1 and
fuzzy hits score at most 0.8, every exact hit sits strictly before every
fuzzy hit. -/
theorem sorted_exact_before_fuzzy (out : List NameQueryResult)
    (hsorted : List.Sorted (fun a b : NameQueryResult => b.confidence ≤ a.confidence) out)
    (hchar : ∀ r ∈ out, (r.match_type = exactTag → r.confidence = 1) ∧
      (r.match_type = fuzzyTag → r.confidence ≤ 0.8)) :
    ∀ i j : Fin out.length, (out.get i).match_type = exactTag →
      (out.get j).match_type = fuzzyTag → (i : ℕ) < (j : ℕ) := by
  intro i j hie hjf
  have hmemi : out.get i ∈ out := List.get_mem out i.1 i.2
  have hmemj : out.get j ∈ out := List.get_mem out j.1 j.2
  have hconfi : (out.get i).confidence = 1 := (hchar _ hmemi).1 hie
  have hconfj : (out.get j).confidence ≤ 0.8 := (hchar _ hmemj).2 hjf
  rcases lt_trichotomy (i : ℕ) (j : ℕ) with hlt | heq | hgt
  · exact hlt
  · exfalso
    have hij : i = j := Fin.ext heq
    rw [hij, hjf] at hie
    exact absurd hie (by decide)
  · exfalso
    have hrel := List.pairwise_iff_get.mp hsorted j i hgt
    rw [hconfi] at hrel
    have h18 : (1 : ℚ) ≤ 0.8 := le_trans hrel hconfj
    norm_num at h18

/-- Claim C2 (amended): with similarities bounded by 1 and a threshold below
1, the resolver's output is sorted by descending `confidence` and every exact
hit (confidence 1.0) is placed strictly before every fuzzy hit (confidence at
most 0.8); the registry's own `search`, however, sorts by the combined key
`min(confidence, name_confidence)`, not by `confidence`. -/
theorem c2_resolver_ordering (m : NameMap) (name : Str) (nt : Option Str)
    (cl : Bool) (threshold : ℚ) (sim : Str → Str → ℚ)
    (hsim : ∀ a b, sim a b ≤ 1) (ht : threshold < 1) :
    List.Sorted (fun a b : NameQueryResult => b.confidence ≤ a.confidence)
      (resolver_resolve m name nt true cl threshold sim) ∧
    List.Sorted (fun a b : NameQueryResult => searchSortKey b ≤ searchSortKey a)
      (name_registry_search m name true cl nt) ∧
    ∀ i j : Fin (resolver_resolve m name nt true cl threshold sim).length,
      ((resolver_resolve m name nt true cl threshold sim).get i).match_type = exactTag →
      ((resolver_resolve m name nt true cl threshold sim).get j).match_type = fuzzyTag →
      (i : ℕ) < (j : ℕ) := by
  have hsorted : List.Sorted (fun a b : NameQueryResult => b.confidence ≤ a.confidence)
      (resolver_resolve m name nt true cl threshold sim) := by
    simp only [resolver_resolve]
    exact List.sorted_insertionSort _ _
  have hsearch : List.Sorted (fun a b : NameQueryResult => searchSortKey b ≤ searchSortKey a)
      (name_registry_search m name true cl nt) := by
    simp only [name_registry_search]
    exact List.sorted_insertionSort _ _
  refine ⟨hsorted, hsearch, sorted_exact_before_fuzzy _ hsorted ?_⟩
  intro r hr
  rcases resolver_resolve_mem m name nt true cl threshold sim r hr with h | h
  · rcases name_registry_search_mem m name true cl nt r h with ⟨h1, h2⟩ | ⟨h1, h2⟩ | ⟨h1, h2⟩ <;>
      constructor <;> intro htag
    · exact h1
    · rw [htag] at h2; exact absurd h2 (by decide)
    · rw [htag] at h2; exact absurd h2 (by decide)
    · rw [htag] at h2; exact absurd h2 (by decide)
    · rw [htag] at h2; exact absurd h2 (by decide)
    · rw [htag] at h2; exact absurd h2 (by decide)
  · rcases resolver_fuzzy_search_mem m name nt threshold _ sim r h with ⟨h2, a, b, hth, hconf⟩
    constructor
    · intro htag
      rw [htag] at h2
      exact absurd h2 (by decide)
    · intro _
      rw [hconf]
      exact fuzzy_confidence_le threshold (sim a b) ht (hsim a b)

/-- Witness for C2 at a concrete registry, the constant similarity 0 and
threshold 0. -/
theorem c2_resolver_ordering_witness :
    List.Sorted (fun a b : NameQueryResult => b.confidence ≤ a.confidence)
      (resolver_resolve mSmith [113] none true true 0 (fun _ _ => 0)) ∧
    List.Sorted (fun a b : NameQueryResult => searchSortKey b ≤ searchSortKey a)
      (name_registry_search mSmith [113] true true none) ∧
    ∀ i j : Fin (resolver_resolve mSmith [113] none true true 0 (fun _ _ => 0)).length,
      ((resolver_resolve mSmith [113] none true true 0 (fun _ _ => 0)).get i).match_type = exactTag →
      ((resolver_resolve mSmith [113] none true true 0 (fun _ _ => 0)).get j).match_type = fuzzyTag →
      (i : ℕ) < (j : ℕ) :=
  c2_resolver_ordering mSmith [113] none true 0 (fun _ _ => 0)
    (fun _ _ => zero_le_one) zero_lt_one

/-- The C2 counterexample entry with primary name `"q"` and validity
confidence 0.3. -/
def entryQa : NameEntry := ⟨[97], [113], [115], [], [], [], [], some 0.3⟩

/-- The C2 counterexample entry with primary name `"z"` and a cross-language
form `"q"`. -/
def entryZb : NameEntry :=
  ⟨[98], [122], [115], [], [⟨[113], [100], none, true⟩], [], [], none⟩

/-- The two-entry registry of the C2 counterexample. -/
def mMin : NameMap := [([97], entryQa), ([98], entryZb)]

/-- Counterexample to C2 as stated: on the query `"q"` with cognates enabled,
`NameRegistry.search` returns the cognate hit (confidence 0.8) before the
exact hit (confidence 1.0), because its sort key is
`min(confidence, name_confidence)` — 0.5 for the cognate versus 0.3 for the
exact hit — so the list is not sorted by descending confidence. -/
theorem c2_counterexample :
    ¬ List.Sorted (fun a b : NameQueryResult => b.confidence ≤ a.confidence)
      (name_registry_search mMin [113] true true none) := by
  have hpre : name_registry_search mMin [113] true true none =
      List.insertionSort (fun a b => searchSortKey b ≤ searchSortKey a)
        [⟨entryQa, 1, exactTag, some 0.3⟩, ⟨entryZb, 0.8, cognateTag, some 0.5⟩] := rfl
  have hkey : ¬ (searchSortKey ⟨entryZb, 0.8, cognateTag, some 0.5⟩ ≤
      searchSortKey ⟨entryQa, 1, exactTag, some 0.3⟩) := by
    simp only [searchSortKey]
    norm_num [min_def]
  have hsorted_eq : List.insertionSort (fun a b => searchSortKey b ≤ searchSortKey a)
      [⟨entryQa, 1, exactTag, some 0.3⟩, ⟨entryZb, 0.8, cognateTag, some 0.5⟩] =
      [⟨entryZb, 0.8, cognateTag, some 0.5⟩, ⟨entryQa, 1, exactTag, some 0.3⟩] := by
    simp only [List.insertionSort, List.orderedInsert]
    rw [if_neg hkey]
  rw [hpre, hsorted_eq]
  intro hs
  have hrel := List.rel_of_sorted_cons hs _ (List.mem_singleton.mpr rfl)
  norm_num at hrel

/-- Lookup distributes over append, preferring the left map. -/
theorem alookup_append {β : Type} (m1 m2 : List (Str × β)) (i : Str) :
    alookup (m1 ++ m2) i =
      (match alookup m1 i with
       | some v => some v
       | none => alookup m2 i) := by
  induction m1 with
  | nil => rfl
  | cons p ps ih =>
    by_cases hp : p.1 = i
    · simp [alookup, hp]
    · simpa [alookup, hp] using ih

/-- Lookup after the in-place replacement performed by `update`: the updated
id reads as replaced when present; other ids are untouched. -/
theorem alookup_map_replace (m : LocMap) (k i : Str) (l : Location) :
    alookup (m.map (fun p => if p.1 = k then (p.1, l) else p)) i =
      if k = i then (alookup m i).map (fun _ => l) else alookup m i := by
  induction m with
  | nil => simp [alookup]
  | cons p ps ih =>
    by_cases hp : p.1 = k
    · by_cases hi : p.1 = i
      · have hk : k = i := hp ▸ hi
        simp [alookup, hp, hi, hk]
      · have hk : ¬ (k = i) := fun hc => hi (hp.trans hc)
        rw [List.map_cons]
        simp only [if_pos hp]
        rw [alookup, if_neg hi, alookup, if_neg hi, ih, if_neg hk]
    · by_cases hi : p.1 = i
      · have hk : ¬ (k = i) := fun hc => hp (hc ▸ hi)
        rw [List.map_cons]
        simp only [if_neg hp]
        rw [alookup, if_pos hi, alookup, if_pos hi, if_neg hk]
      · rw [List.map_cons]
        simp only [if_neg hp]
        rw [alookup, if_neg hi, alookup, if_neg hi, ih]

/-- Lookup after `delete`: the deleted id reads as absent, all others as
before. -/
theorem alookup_delete (m : LocMap) (i j : Str) :
    alookup (delete m i).2 j = if j = i then none else alookup m j := by
  unfold delete
  by_cases h : (alookup m i).isSome
  · by_cases hj : j = i
    · subst hj; simp [h, alookup_filter_self]
    · simp [h, hj, alookup_filter_other m i j hj]
  · have hn : alookup m i = none := by
      cases hc : alookup m i
      · rfl
      · rw [hc] at h; simp at h
    by_cases hj : j = i
    · subst hj; simp [h, hn]
    · simp [h, hj]

/-- One mutation step of the registry, projected to a single identifier: the
committed effect is exactly `lastCommitted`. -/
theorem alookup_applyOp (m : LocMap) (op : RegOp) (i : Str) :
    alookup (applyOp m op) i = lastCommitted i (alookup m i) op := by
  cases op with
  | create l =>
    by_cases h : (alookup m l.location_id).isSome
    · simp only [applyOp, create, if_pos h, lastCommitted]
      by_cases hk : l.location_id = i
      · have hi2 : (alookup m i).isSome = true := by rw [← hk]; exact h
        rw [if_pos hk, if_pos hi2]
      · rw [if_neg hk]
    · simp only [applyOp, create, if_neg h, lastCommitted]
      rw [alookup_append]
      by_cases hk : l.location_id = i
      · have hn : alookup m i = none := by
          cases hc : alookup m i
          · rfl
          · rw [hk] at h; rw [hc] at h; simp at h
        simp [hn, alookup, hk]
      · have hne : ¬ ((l.location_id, l).1 = i) := hk
        cases hc : alookup m i
        · simp [hc, alookup, hne]
        · simp [hc]
  | update l =>
    by_cases h : (alookup m l.location_id).isSome
    · simp only [applyOp, update, if_pos h, lastCommitted]
      rw [alookup_map_replace]
      by_cases hk : l.location_id = i
      · have hi2 : (alookup m i).isSome = true := by rw [← hk]; exact h
        rw [if_pos hk, if_pos hi2]
        rcases Option.isSome_iff_exists.mp hi2 with ⟨v, hv⟩
        rw [hv]
        simp [hk]
      · rw [if_neg hk, if_neg hk]
    · simp only [applyOp, update, if_neg h, lastCommitted]
      by_cases hk : l.location_id = i
      · have hi2 : ¬ (alookup m i).isSome = true := by rw [← hk]; exact h
        rw [if_pos hk, if_neg hi2]
      · rw [if_neg hk]
  | delete j =>
    simp only [applyOp, lastCommitted]
    rw [alookup_delete]
    by_cases hj : i = j
    · subst hj; simp
    · rw [if_neg hj, if_neg (fun hc => hj hc.symm)]

/-- Reads after a whole mutation sequence are the fold of the per-identifier
committed effects. -/
theorem alookup_applyOps (m : LocMap) (ops : List RegOp) (i : Str) :
    alookup (applyOps m ops) i = ops.foldl (lastCommitted i) (alookup m i) := by
  induction ops generalizing m with
  | nil => rfl
  | cons op ops ih =>
    simp only [applyOps, List.foldl_cons]
    rw [← applyOps, ih, alookup_applyOp]

/-- `countP` over a flattened list is the sum of the per-chunk counts. -/
theorem countP_flatMap {α β : Type} (p : β → Bool) (l : List α) (f : α → List β) :
    (l.flatMap f).countP p = (l.map (fun a => (f a).countP p)).sum := by
  induction l with
  | nil => rfl
  | cons a as ih => simp [List.flatMap_cons, List.countP_append, ih]

/-- Filtering on equality with a key keeps `count key` many elements. -/
theorem length_filter_eq_count (xs : List Str) (key : Str) :
    (xs.filter (fun k => k = key)).length = xs.count key := by
  induction xs with
  | nil => rfl
  | cons x xs ih =>
    by_cases hx : x = key
    · simp [List.filter_cons, List.count_cons, hx, ih]
    · simp [List.filter_cons, List.count_cons, hx, ih]

/-- With distinct keys, every stored pair is found by lookup. -/
theorem alookup_mem_of_nodup {β : Type} (m : List (Str × β)) (k : Str) (v : β)
    (hnd : (m.map (fun p => p.1)).Nodup) (h : (k, v) ∈ m) :
    alookup m k = some v := by
  induction m with
  | nil => cases h
  | cons p ps ih =>
    rcases List.mem_cons.mp h with h1 | h1
    · rw [← h1]
      simp [alookup]
    · have hk : ¬ (p.1 = k) := by
        intro hc
        have hmem : k ∈ ps.map (fun p => p.1) :=
          List.mem_map.mpr ⟨(k, v), h1, rfl⟩
        rw [List.map_cons] at hnd
        exact (List.nodup_cons.mp hnd).1 (hc ▸ hmem)
    
      rw [alookup, if_neg hk]
      exact ih (by rw [List.map_cons] at hnd; exact (List.nodup_cons.mp hnd).2) h1

/-- Summing terms that vanish except at one possible element of a
duplicate-free list. -/
theorem sum_ite_eq_single {α : Type} [DecidableEq α] (xs : List α) (a : α)
    (g : α → ℕ) (hnd : xs.Nodup) :
    (xs.map (fun x => if x = a then g x else 0)).sum = if a ∈ xs then g a else 0 := by
  induction xs with
  | nil => simp
  | cons x xs ih =>
    rcases List.nodup_cons.mp hnd with ⟨hx, hxs⟩
    by_cases hxa : x = a
    · subst hxa
      have hnotmem : ¬ (x ∈ xs) := hx
      simp [ih hxs, hnotmem]
    · have hax : ¬ (a = x) := fun hc => hxa hc.symm
      simp [List.map_cons, List.sum_cons, hxa, ih hxs, List.mem_cons, hax]

/-- The exact-search count formula: under well-formedness, a location appears
in `search_exact m q` once per occurrence of the lowercased query among its
indexed name keys — and not at all when it is not stored. -/
theorem search_exact_count (m : LocMap) (l : Location) (q : Str) (hwf : LocWF m) :
    (search_exact m q).count l =
      if (l.location_id, l) ∈ m then (locNameKeys l).count (pyLower q) else 0 := by
  obtain ⟨hnd, hid⟩ := hwf
  have hmnd : m.Nodup := List.Nodup.of_map _ hnd
  rw [search_exact, List.count_filterMap, locIndexIds, countP_flatMap]
  have perEntry : ∀ p ∈ m,
      (((locNameKeys p.2).filter (fun k => k = pyLower q)).map (fun _ => p.1)).countP
          (fun i => alookup m i == some l) =
        (fun x : Str × Location =>
          if x = (l.location_id, l) then (locNameKeys x.2).count (pyLower q) else 0) p := by
    intro p hp
    dsimp only
    have halo : alookup m p.1 = some p.2 :=
      alookup_mem_of_nodup m p.1 p.2 hnd (by simpa using hp)
    rw [List.countP_map]
    by_cases hpl : p.2 = l
    · have hcond : ((fun i => alookup m i == some l) ∘ (fun _ : Str => p.1)) =
          fun _ : Str => true := by
        funext x
        simp [Function.comp, halo, hpl]
      rw [hcond]
      have hptarget : p = (l.location_id, l) := by
        have h1 : p.1 = l.location_id := by rw [hid p hp, hpl]
        cases p with
        | mk a b =>
          simp only at h1 hpl
          rw [h1, hpl]
      rw [if_pos hptarget]
      simp only [List.countP_true]
      exact length_filter_eq_count _ _
    · have hcond : ((fun i => alookup m i == some l) ∘ (fun _ : Str => p.1)) =
          fun _ : Str => false := by
        funext x
        simp [Function.comp, halo, hpl]
      rw [hcond]
      have hptarget : ¬ (p = (l.location_id, l)) := by
        intro hc
        exact hpl (by rw [hc])
      rw [if_neg hptarget]
      simp [List.countP_false]
  rw [List.map_congr_left perEntry,
    sum_ite_eq_single m (l.location_id, l)
      (fun x => (locNameKeys x.2).count (pyLower q)) hmnd]
  by_cases hmem : (l.location_id, l) ∈ m
  · simp [hmem]
  · simp [hmem]

/-- An id looks up successfully exactly when it is among the stored keys. -/
theorem alookup_isSome_iff {β : Type} (m : List (Str × β)) (k : Str) :
    (alookup m k).isSome = true ↔ k ∈ m.map (fun p => p.1) := by
  induction m with
  | nil => simp [alookup]
  | cons p ps ih =>
    by_cases hp : p.1 = k
    · simp [alookup, hp]
    · simp only [alookup, if_neg hp, List.map_cons, List.mem_cons, ih]
      constructor
      · exact Or.inr
      · rintro (h | h)
        · exact absurd h.symm hp
        · exact h

/-- Every mutation preserves registry well-formedness. -/
theorem LocWF_applyOp (m : LocMap) (op : RegOp) (hwf : LocWF m) :
    LocWF (applyOp m op) := by
  obtain ⟨hnd, hid⟩ := hwf
  cases op with
  | create l =>
    by_cases h : (alookup m l.location_id).isSome
    · simpa [applyOp, create, h] using ⟨hnd, hid⟩
    · simp only [applyOp, create, if_neg h]
      constructor
      · rw [List.map_append]
        rw [List.nodup_append]
        refine ⟨hnd, by simp, ?_⟩
        intro a ha hmem
        simp only [List.map_cons, List.map_nil, List.mem_singleton] at hmem
        rw [hmem] at ha
        exact h ((alookup_isSome_iff m l.location_id).mpr ha)
      · intro p hp
        rcases List.mem_append.mp hp with h1 | h1
        · exact hid p h1
        · rw [List.mem_singleton.mp h1]
  | update l =>
    by_cases h : (alookup m l.location_id).isSome
    · simp only [applyOp, update, if_pos h]
      constructor
      · rw [List.map_map]
        have heq : ((fun p : Str × Location => p.1) ∘
            (fun p : Str × Location => if p.1 = l.location_id then (p.1, l) else p)) =
            fun p : Str × Location => p.1 := by
          funext p
          by_cases hp : p.1 = l.location_id <;> simp [Function.comp, hp]
        rw [heq]
        exact hnd
      · intro p' hp'
        rcases List.mem_map.mp hp' with ⟨p, hp, hfp⟩
        by_cases hpk : p.1 = l.location_id
        · rw [← hfp, if_pos hpk]
          exact hpk
        · rw [← hfp, if_neg hpk]
          exact hid p hp
    · simpa [applyOp, update, h] using ⟨hnd, hid⟩
  | delete i =>
    by_cases h : (alookup m i).isSome
    · simp only [applyOp, delete, if_pos h]
      constructor
      · exact List.Nodup.sublist (List.Sublist.map _ (List.filter_sublist m)) hnd
      · intro p hp
        exact hid p (List.mem_of_mem_filter hp)
    · simpa [applyOp, delete, h] using ⟨hnd, hid⟩

/-- Claim C1 (amended): for every well-formed registry state, (i) after any
mutation sequence `read i` returns exactly the fold of the per-identifier
committed effects — the last committed mutation for `i` (or the absence
marker); (ii) `search_exact q` returns, for each stored location, one copy
per occurrence of the lowercased query among its indexed keys (lowercased
modern name, historical names and alternate spellings) — so a matching record
appears at most once only when its matching key is unique within the record —
and no copy of locations not stored; (iii) every mutation preserves
well-formedness, so (i) and (ii) hold along any operation sequence. -/
theorem c1_registry_index_consistency (m : LocMap) (ops : List RegOp) (i : Str)
    (l : Location) (q : Str) (op : RegOp) (hwf : LocWF m) :
    regRead (applyOps m ops) i = ops.foldl (lastCommitted i) (regRead m i) ∧
    (search_exact m q).count l =
      (if (l.location_id, l) ∈ m then (locNameKeys l).count (pyLower q) else 0) ∧
    LocWF (applyOp m op) :=
  ⟨alookup_applyOps m ops i, search_exact_count m l q hwf, LocWF_applyOp m op hwf⟩

/-- Witness for C1 on the one-record registry `mW` and a create/delete
sequence. -/
theorem c1_registry_index_consistency_witness :
    regRead (applyOps mW [RegOp.create locW, RegOp.delete [105, 100]]) [105, 100] =
      [RegOp.create locW, RegOp.delete [105, 100]].foldl
        (lastCommitted [105, 100]) (regRead mW [105, 100]) ∧
    (search_exact mW [88]).count locW =
      (if (locW.location_id, locW) ∈ mW then (locNameKeys locW).count (pyLower [88]) else 0) ∧
    LocWF (applyOp mW (RegOp.delete [105, 100])) :=
  c1_registry_index_consistency mW [RegOp.create locW, RegOp.delete [105, 100]]
    [105, 100] locW [88] (RegOp.delete [105, 100])
    (by constructor <;> decide)

/-- The C1 counterexample location: modern name `"X"` with the alternate
spelling `"X"` duplicated among its own keys. -/
def locDup : Location := ⟨[105, 100], [88], [], [[88]], none, none⟩

/-- The one-record registry holding `locDup`. -/
def mDup : LocMap := [([105, 100], locDup)]

/-- Counterexample to C1 as stated: the query `"X"` matches `locDup` both via
its modern name and via its alternate spelling, and `search_exact` returns
the record twice — not "at most once". -/
theorem c1_counterexample :
    search_exact mDup [88] = [locDup, locDup] ∧
    ¬ ((search_exact mDup [88]).count locDup ≤ 1) := by
  constructor
  · rfl
  · decide

/-- Totality of the ascending-distance comparison of the geospatial search. -/
instance : IsTotal (Location × ℝ) (fun a b => a.2 ≤ b.2) :=
  ⟨fun a b => le_total a.2 b.2⟩

/-- Transitivity of the ascending-distance comparison. -/
instance : IsTrans (Location × ℝ) (fun a b => a.2 ≤ b.2) :=
  ⟨fun _ _ _ => le_trans⟩

/-- Squared sine is invariant under swapping the endpoints of a difference. -/
theorem sin_sq_sub_comm (x y : ℝ) :
    Real.sin ((x - y) / 2) ^ 2 = Real.sin ((y - x) / 2) ^ 2 := by
  rw [show (x - y) / 2 = -((y - x) / 2) by ring, Real.sin_neg]
  ring

/-- The haversine distance is symmetric in its two coordinate pairs. -/
theorem haversine_comm (lat1 lon1 lat2 lon2 : ℝ) :
    haversine lat1 lon1 lat2 lon2 = haversine lat2 lon2 lat1 lon1 := by
  simp only [haversine, radiansR]
  apply congrArg (fun t : ℝ => 6371 * (2 * Real.arcsin (Real.sqrt t)))
  rw [sin_sq_sub_comm (lat2 * Real.pi / 180) (lat1 * Real.pi / 180),
    sin_sq_sub_comm (lon2 * Real.pi / 180) (lon1 * Real.pi / 180)]
  ring

/-- The haversine distance of a point to itself is zero. -/
theorem haversine_self (lat lon : ℝ) : haversine lat lon lat lon = 0 := by
  simp only [haversine, radiansR, sub_self, zero_div, Real.sin_zero]
  norm_num [Real.sqrt_zero, Real.arcsin_zero]

/-- Characterisation of one candidate of the geospatial scan. -/
theorem search_by_coordinates_cand (lat lon radius : ℝ) (p : Str × Location)
    (l : Location) (d : ℝ) :
    ((match p.2.geocode with
      | none => none
      | some g =>
        let distance := haversine lat lon (g.latitude : ℝ) (g.longitude : ℝ)
        if distance ≤ radius then some (p.2, distance) else none) = some (l, d)) ↔
      (p.2 = l ∧ ∃ g, l.geocode = some g ∧
        d = haversine lat lon (g.latitude : ℝ) (g.longitude : ℝ) ∧ d ≤ radius) := by
  cases hg : p.2.geocode with
  | none =>
    simp only []
    constructor
    · intro h; cases h
    · rintro ⟨hpl, g, hlg, _⟩
      rw [← hpl, hg] at hlg
      cases hlg
  | some g =>
    simp only []
    by_cases hd : haversine lat lon (g.latitude : ℝ) (g.longitude : ℝ) ≤ radius
    · rw [if_pos hd]
      constructor
      · intro h
        injection h with h2
        have hpl : p.2 = l := congrArg Prod.fst h2
        have hdd : haversine lat lon (g.latitude : ℝ) (g.longitude : ℝ) = d :=
          congrArg Prod.snd h2
        exact ⟨hpl, g, by rw [← hpl, hg], hdd.symm, hdd ▸ hd⟩
      · rintro ⟨hpl, g2, hlg, hdg, _⟩
        rw [← hpl, hg] at hlg
        injection hlg with hgg
        rw [hpl, hdg, hgg]
    · rw [if_neg hd]
      constructor
      · intro h; cases h
      · rintro ⟨hpl, g2, hlg, hdg, hdr⟩
        rw [← hpl, hg] at hlg
        injection hlg with hgg
        rw [← hgg] at hdg
        rw [hdg] at hdr
        exact absurd hdr hd

/-- Claim C8: `search_by_coordinates` returns exactly the stored records that
have coordinates and lie within the radius of the query point — records
without coordinates are silently excluded — each paired with its haversine
distance, sorted ascending by distance; the haversine distance (Earth radius
6371 km) is symmetric and vanishes on identical coordinates. -/
theorem c8_geospatial_search (m : LocMap) (lat lon radius : ℝ) (l : Location)
    (d : ℝ) (a b c e : ℝ) :
    ((l, d) ∈ search_by_coordinates m lat lon radius ↔
      ∃ p ∈ m, p.2 = l ∧ ∃ g, l.geocode = some g ∧
        d = haversine lat lon (g.latitude : ℝ) (g.longitude : ℝ) ∧ d ≤ radius) ∧
    List.Sorted (fun x y : Location × ℝ => x.2 ≤ y.2)
      (search_by_coordinates m lat lon radius) ∧
    haversine a b c e = haversine c e a b ∧
    haversine a b a b = 0 := by
  refine ⟨?_, ?_, haversine_comm a b c e, haversine_self a b⟩
  · rw [search_by_coordinates]
    rw [(List.perm_insertionSort _ _).mem_iff]
    rw [List.mem_filterMap]
    constructor
    · rintro ⟨p, hp, hsome⟩
      exact ⟨p, hp, (search_by_coordinates_cand lat lon radius p l d).mp hsome⟩
    · rintro ⟨p, hp, hcond⟩
      exact ⟨p, hp, (search_by_coordinates_cand lat lon radius p l d).mpr hcond⟩
  · rw [search_by_coordinates]
    exact List.sorted_insertionSort _ _

/-- Lowercasing one code point is idempotent. -/
theorem lowerCp_idem (c : Nat) : lowerCp (lowerCp c) = lowerCp c := by
  unfold lowerCp
  split_ifs <;> omega

/-- Lowercasing never produces a period. -/
theorem lowerCp_ne_period (c : Nat) (h : c ≠ periodCp) : lowerCp c ≠ periodCp := by
  simp only [lowerCp, periodCp] at h ⊢
  split_ifs <;> omega

/-- Lowercasing never produces a comma. -/
theorem lowerCp_ne_comma (c : Nat) (h : c ≠ commaCp) : lowerCp c ≠ commaCp := by
  simp only [lowerCp, commaCp] at h ⊢
  split_ifs <;> omega

/-- Characters of a stripped string come from the string. -/
theorem mem_pyStrip (s : Str) (c : Nat) (h : c ∈ pyStrip s) : c ∈ s := by
  unfold pyStrip at h
  rw [List.mem_reverse] at h
  have h2 := (List.dropWhile_sublist _).mem h
  rw [List.mem_reverse] at h2
  exact (List.dropWhile_sublist _).mem h2

/-- `chunks` never returns the empty list. -/
theorem chunks_ne_nil (s : Str) : chunks s ≠ [] := by
  induction s with
  | nil => simp [chunks]
  | cons c cs ih =>
    rw [chunks]
    cases h : chunks cs with
    | nil => exact absurd h ih
    | cons w ws =>
      by_cases hc : isSpaceCp c <;> simp [hc]

/-- Unfolds one step of `chunks` when the tail's chunks are known. -/
theorem chunks_cons_eq (a : Nat) (as : Str) (w0 : Str) (ws0 : List Str)
    (h : chunks as = w0 :: ws0) :
    chunks (a :: as) = if isSpaceCp a then [] :: w0 :: ws0 else (a :: w0) :: ws0 := by
  rw [chunks, h]

/-- `' '.join` on a list with at least two words. -/
theorem joinSpace_cons_cons (w w2 : Str) (ws : List Str) :
    joinSpace (w :: w2 :: ws) = w ++ spaceCp :: joinSpace (w2 :: ws) := rfl

/-- Characters of the chunks of a string come from the string. -/
theorem mem_chunks (s : Str) (w : Str) (hw : w ∈ chunks s) (c : Nat) (hc : c ∈ w) :
    c ∈ s := by
  induction s generalizing w with
  | nil =>
    simp only [chunks, List.mem_singleton] at hw
    rw [hw] at hc
    cases hc
  | cons a as ih =>
    cases h : chunks as with
    | nil => exact absurd h (chunks_ne_nil as)
    | cons w0 ws0 =>
      rw [chunks_cons_eq a as w0 ws0 h] at hw
      by_cases ha : isSpaceCp a
      · rw [if_pos ha] at hw
        rcases List.mem_cons.mp hw with h1 | h1
        · rw [h1] at hc; cases hc
        · exact List.mem_cons_of_mem a (ih w (h ▸ h1) hc)
      · rw [if_neg ha] at hw
        rcases List.mem_cons.mp hw with h1 | h1
        · rw [h1] at hc
          rcases List.mem_cons.mp hc with h2 | h2
          · exact h2 ▸ List.mem_cons_self a as
          · exact List.mem_cons_of_mem a (ih w0 (h ▸ List.mem_cons_self w0 ws0) h2)
        · exact List.mem_cons_of_mem a (ih w (h ▸ List.mem_cons_of_mem w0 h1) hc)

/-- Chunks contain no whitespace characters. -/
theorem mem_chunks_not_space (s : Str) (w : Str) (hw : w ∈ chunks s) (c : Nat)
    (hc : c ∈ w) : isSpaceCp c = false := by
  induction s generalizing w with
  | nil =>
    simp only [chunks, List.mem_singleton] at hw
    rw [hw] at hc
    cases hc
  | cons a as ih =>
    cases h : chunks as with
    | nil => exact absurd h (chunks_ne_nil as)
    | cons w0 ws0 =>
      rw [chunks_cons_eq a as w0 ws0 h] at hw
      by_cases ha : isSpaceCp a
      · rw [if_pos ha] at hw
        rcases List.mem_cons.mp hw with h1 | h1
        · rw [h1] at hc; cases hc
        · exact ih w (h ▸ h1) hc
      · rw [if_neg ha] at hw
        rcases List.mem_cons.mp hw with h1 | h1
        · rw [h1] at hc
          rcases List.mem_cons.mp hc with h2 | h2
          · rw [h2]; exact Bool.of_not_eq_true ha
          · exact ih w0 (h ▸ List.mem_cons_self w0 ws0) h2
        · exact ih w (h ▸ List.mem_cons_of_mem w0 h1) hc

/-- Characters of `' '.join(ws)` are the space or characters of the words. -/
theorem mem_joinSpace (ws : List Str) (c : Nat) (h : c ∈ joinSpace ws) :
    c = spaceCp ∨ ∃ w ∈ ws, c ∈ w := by
  induction ws with
  | nil => cases h
  | cons w ws ih =>
    cases ws with
    | nil =>
      simp only [joinSpace] at h
      exact Or.inr ⟨w, List.mem_singleton.mpr rfl, h⟩
    | cons w2 ws2 =>
      rw [joinSpace_cons_cons] at h
      rcases List.mem_append.mp h with h1 | h1
      · exact Or.inr ⟨w, List.mem_cons_self _ _, h1⟩
      · rcases List.mem_cons.mp h1 with h2 | h2
        · exact Or.inl h2
        · rcases ih h2 with h3 | ⟨w3, hw3, hc3⟩
          · exact Or.inl h3
          · exact Or.inr ⟨w3, List.mem_cons_of_mem w hw3, hc3⟩

/-- Characters of the collapsed string are the space or characters of the
original. -/
theorem mem_collapseWs (s : Str) (c : Nat) (h : c ∈ collapseWs s) :
    c = spaceCp ∨ c ∈ s := by
  rcases mem_joinSpace _ c h with h1 | ⟨w, hw, hc⟩
  · exact Or.inl h1
  · exact Or.inr (mem_chunks s w (List.mem_of_mem_filter hw) c hc)

/-- A whitespace-free string is a single chunk. -/
theorem chunks_no_space (s : Str) (h : ∀ c ∈ s, isSpaceCp c = false) :
    chunks s = [s] := by
  induction s with
  | nil => rfl
  | cons a as ih =>
    have has : chunks as = [as] := ih (fun c hc => h c (List.mem_cons_of_mem a hc))
    rw [chunks_cons_eq a as as [] has,
      if_neg (by rw [h a (List.mem_cons_self a as)]; exact Bool.false_ne_true)]

/-- Prepending a whitespace-free word merges it into the first chunk. -/
theorem chunks_append (w t : Str) (u : Str) (us : List Str)
    (hw : ∀ c ∈ w, isSpaceCp c = false) (ht : chunks t = u :: us) :
    chunks (w ++ t) = (w ++ u) :: us := by
  induction w with
  | nil => simpa using ht
  | cons a as ih =>
    have has : chunks (as ++ t) = (as ++ u) :: us :=
      ih (fun c hc => hw c (List.mem_cons_of_mem a hc))
    rw [List.cons_append, chunks_cons_eq a (as ++ t) (as ++ u) us has,
      if_neg (by rw [hw a (List.mem_cons_self a as)]; exact Bool.false_ne_true),
      List.cons_append]

/-- Splitting `' '.join(ws)` recovers `ws` when the words are non-empty and
whitespace-free. -/
theorem pyWords_joinSpace (ws : List Str)
    (h : ∀ w ∈ ws, w ≠ [] ∧ ∀ c ∈ w, isSpaceCp c = false) :
    pyWords (joinSpace ws) = ws := by
  induction ws with
  | nil => rfl
  | cons w ws ih =>
    obtain ⟨hwne, hwsp⟩ := h w (List.mem_cons_self w ws)
    cases ws with
    | nil =>
      show pyWords w = [w]
      rw [pyWords, chunks_no_space w hwsp]
      simp [hwne]
    | cons w2 ws2 =>
      have hrec : pyWords (joinSpace (w2 :: ws2)) = w2 :: ws2 :=
        ih (fun x hx => h x (List.mem_cons_of_mem w hx))
      cases hcj : chunks (joinSpace (w2 :: ws2)) with
      | nil => exact absurd hcj (chunks_ne_nil _)
      | cons u us =>
        have hsp : chunks (spaceCp :: joinSpace (w2 :: ws2)) = [] :: u :: us := by
          rw [chunks_cons_eq spaceCp _ u us hcj, if_pos (by rfl)]
        rw [joinSpace_cons_cons, pyWords,
          chunks_append w _ [] (u :: us) hwsp hsp, List.append_nil,
          List.filter_cons_of_pos (by simpa using hwne)]
        congr 1
        have hfu : pyWords (joinSpace (w2 :: ws2)) =
            List.filter (fun x => x ≠ []) (u :: us) := by
          rw [pyWords, hcj]
        rw [← hfu, hrec]

/-- The words of a string are non-empty and whitespace-free. -/
theorem pyWords_spec (s : Str) :
    ∀ w ∈ pyWords s, w ≠ [] ∧ ∀ c ∈ w, isSpaceCp c = false := by
  intro w hw
  rcases List.mem_filter.mp hw with ⟨hmem, hne⟩
  exact ⟨by simpa using hne, fun c hc => mem_chunks_not_space s w hmem c hc⟩

/-- Splitting the collapsed string recovers the original words. -/
theorem pyWords_collapseWs (s : Str) : pyWords (collapseWs s) = pyWords s :=
  pyWords_joinSpace (pyWords s) (pyWords_spec s)

/-- Collapsing whitespace is idempotent. -/
theorem collapseWs_idem (s : Str) : collapseWs (collapseWs s) = collapseWs s := by
  rw [collapseWs, pyWords_collapseWs]
  rfl

/-- Joining a non-empty first word yields a non-empty string. -/
theorem joinSpace_ne_nil (w : Str) (ws : List Str) (hw : w ≠ []) :
    joinSpace (w :: ws) ≠ [] := by
  cases ws with
  | nil => simpa [joinSpace] using hw
  | cons w2 ws2 =>
    rw [joinSpace_cons_cons]
    cases w with
    | nil => exact absurd rfl hw
    | cons a as => simp

/-- The first character of a joined word list lies in the first word. -/
theorem joinSpace_head_mem (w : Str) (ws : List Str) (d : Nat) (t : Str)
    (hw : w ≠ []) (h : joinSpace (w :: ws) = d :: t) : d ∈ w := by
  cases ws with
  | nil =>
    show d ∈ w
    rw [show joinSpace [w] = w from rfl] at h
    rw [h]
    exact List.mem_cons_self d t
  | cons w2 ws2 =>
    rw [joinSpace_cons_cons] at h
    cases w with
    | nil => exact absurd rfl hw
    | cons a as =>
      rw [List.cons_append] at h
      injection h with h1 h2
      rw [← h1]
      exact List.mem_cons_self a as

/-- The last character of a joined word list (first of its reversal) lies in
one of the words. -/
theorem joinSpace_reverse_mem (ws : List Str)
    (h : ∀ w ∈ ws, w ≠ []) (d : Nat) (t : Str)
    (hr : (joinSpace ws).reverse = d :: t) : ∃ w ∈ ws, d ∈ w := by
  induction ws generalizing d t with
  | nil => cases hr
  | cons w ws ih =>
    cases ws with
    | nil =>
      refine ⟨w, List.mem_cons_self w [], ?_⟩
      rw [show joinSpace [w] = w from rfl] at hr
      rw [← List.mem_reverse, hr]
      exact List.mem_cons_self d t
    | cons w2 ws2 =>
      rw [joinSpace_cons_cons, List.reverse_append, List.reverse_cons] at hr
      cases hJr : (joinSpace (w2 :: ws2)).reverse with
      | nil =>
        have hJ : joinSpace (w2 :: ws2) = [] := by
          have := congrArg List.reverse hJr
          simpa using this
        exact absurd hJ
          (joinSpace_ne_nil w2 ws2 (h w2 (List.mem_cons_of_mem w (List.mem_cons_self w2 ws2))))
      | cons d0 t0 =>
        rw [hJr, List.cons_append, List.cons_append] at hr
        injection hr with h1 _
        rcases ih (fun x hx => h x (List.mem_cons_of_mem w hx)) d0 t0 hJr with ⟨w3, hw3, hd3⟩
        exact ⟨w3, List.mem_cons_of_mem w hw3, h1 ▸ hd3⟩

/-- A string with no leading or trailing whitespace strips to itself. -/
theorem pyStrip_eq_self (s : Str)
    (h1 : ∀ d t, s = d :: t → isSpaceCp d = false)
    (h2 : ∀ d t, s.reverse = d :: t → isSpaceCp d = false) :
    pyStrip s = s := by
  cases hs : s with
  | nil => rfl
  | cons d t =>
    have hd := h1 d t hs
    rw [pyStrip,
      List.dropWhile_cons_of_neg (by rw [hd]; exact Bool.false_ne_true)]
    cases hr : (d :: t).reverse with
    | nil =>
      have := congrArg List.length hr
      simp at this
    | cons d2 t2 =>
      have hd2 := h2 d2 t2 (by rw [hs, hr])
      rw [List.dropWhile_cons_of_neg (by rw [hd2]; exact Bool.false_ne_true)]
      rw [← hr]
      rw [List.reverse_reverse]

/-- A collapsed string strips to itself. -/
theorem pyStrip_collapseWs (s : Str) : pyStrip (collapseWs s) = collapseWs s := by
  cases hw : pyWords s with
  | nil =>
    rw [collapseWs, hw]
    rfl
  | cons w ws =>
    have hspec : ∀ x ∈ pyWords s, x ≠ [] ∧ ∀ c ∈ x, isSpaceCp c = false := pyWords_spec s
    have hwne : w ≠ [] := (hspec w (hw ▸ List.mem_cons_self w ws)).1
    rw [collapseWs, hw]
    apply pyStrip_eq_self
    · intro d t hdt
      have hdw : d ∈ w := joinSpace_head_mem w ws d t hwne hdt
      exact (hspec w (hw ▸ List.mem_cons_self w ws)).2 d hdw
    · intro d t hdt
      rcases joinSpace_reverse_mem (w :: ws)
          (fun x hx => (hspec x (hw ▸ hx)).1) d t hdt with ⟨w3, hw3, hd3⟩
      exact (hspec w3 (hw ▸ hw3)).2 d hd3

/-- Lowercasing fixes every character of the core normalized form. -/
theorem lowered_core (x : Str) :
    ∀ c ∈ collapseWs (pyStrip (pyLower x)), lowerCp c = c := by
  intro c hc
  rcases mem_collapseWs _ c hc with h1 | h1
  · rw [h1]
    decide
  · rcases List.mem_map.mp (mem_pyStrip _ c h1) with ⟨d, _, hd⟩
    rw [← hd]
    exact lowerCp_idem d

/-- Lowercasing the core normalized form is the identity. -/
theorem pyLower_core (x : Str) :
    pyLower (collapseWs (pyStrip (pyLower x))) = collapseWs (pyStrip (pyLower x)) := by
  rw [pyLower, List.map_congr_left (lowered_core x), List.map_id']

/-- Without periods in the input, the core normalized form has none either. -/
theorem core_no_period (s : Str) (hs : periodCp ∉ s) :
    ∀ c ∈ collapseWs (pyStrip (pyLower s)), c ≠ periodCp := by
  intro c hc
  rcases mem_collapseWs _ c hc with h1 | h1
  · rw [h1]; decide
  · rcases List.mem_map.mp (mem_pyStrip _ c h1) with ⟨d, hd, hld⟩
    rw [← hld]
    exact lowerCp_ne_period d (fun hc2 => hs (hc2 ▸ hd))

/-- Without commas in the input, the core normalized form has none either. -/
theorem core_no_comma (t : Str) (ht : commaCp ∉ t) :
    ∀ c ∈ collapseWs (pyStrip (pyLower t)), c ≠ commaCp := by
  intro c hc
  rcases mem_collapseWs _ c hc with h1 | h1
  · rw [h1]; decide
  · rcases List.mem_map.mp (mem_pyStrip _ c h1) with ⟨d, hd, hld⟩
    rw [← hld]
    exact lowerCp_ne_comma d (fun hc2 => ht (hc2 ▸ hd))

/-- Claim C5 (amended): `normalize_name` is idempotent on inputs without
periods on which the suffix-stripping pass is a no-op, and `normalize_location`
is idempotent (composed through the `Option`) on inputs without commas that
contain at least one non-whitespace character; on other inputs idempotence
can fail. -/
theorem c5_normalization_idempotence (s t : Str)
    (hs1 : periodCp ∉ s)
    (hs2 : stripSuffixes (collapseWs (pyStrip (pyLower s))) =
      collapseWs (pyStrip (pyLower s)))
    (ht1 : commaCp ∉ t)
    (ht2 : collapseWs (pyStrip (pyLower t)) ≠ []) :
    normalize_name (normalize_name s) = normalize_name s ∧
    (normalize_location t).bind normalize_location = normalize_location t := by
  constructor
  · by_cases hs0 : s = []
    · subst hs0
      rfl
    · have hfs : (collapseWs (pyStrip (pyLower s))).filter (fun c => c ≠ periodCp) =
          collapseWs (pyStrip (pyLower s)) :=
        List.filter_eq_self.mpr (fun c hc => by simpa using core_no_period s hs1 c hc)
      have hns : normalize_name s = collapseWs (pyStrip (pyLower s)) := by
        rw [normalize_name, if_neg hs0, hfs, hs2]
      rw [hns]
      by_cases hu0 : collapseWs (pyStrip (pyLower s)) = []
      · rw [hu0]
        rfl
      · rw [normalize_name, if_neg hu0, pyLower_core, pyStrip_collapseWs,
          collapseWs_idem, hfs, hs2]
  · have ht0 : t ≠ [] := by
      intro h
      apply ht2
      rw [h]
      rfl
    have hft : (collapseWs (pyStrip (pyLower t))).filter (fun c => c ≠ commaCp) =
        collapseWs (pyStrip (pyLower t)) :=
      List.filter_eq_self.mpr (fun c hc => by simpa using core_no_comma t ht1 c hc)
    have hlt : normalize_location t = some (collapseWs (pyStrip (pyLower t))) := by
      rw [normalize_location, if_neg ht0, hft]
    rw [hlt, Option.some_bind, normalize_location, if_neg ht2, pyLower_core,
      pyStrip_collapseWs, collapseWs_idem, hft]

/-- Witness for C5 on the name `"anna"` and the location `"paris"`. -/
theorem c5_normalization_idempotence_witness :
    normalize_name (normalize_name [97, 110, 110, 97]) =
      normalize_name [97, 110, 110, 97] ∧
    (normalize_location [112, 97, 114, 105, 115]).bind normalize_location =
      normalize_location [112, 97, 114, 105, 115] :=
  c5_normalization_idempotence [97, 110, 110, 97] [112, 97, 114, 105, 115]
    (by decide) (by decide) (by decide) (by decide)

/-- Counterexample to C5 as stated: `normalize_name "a . b"` yields `"a  b"`
(removing the period leaves a double space), which a second pass collapses to
`"a b"`; and `normalize_location " , "` yields the string `""`, on which a
second pass yields `None` instead. -/
theorem c5_counterexample :
    normalize_name (normalize_name [97, 32, 46, 32, 98]) ≠
      normalize_name [97, 32, 46, 32, 98] ∧
    normalize_location [32, 44, 32] = some [] ∧ normalize_location [] = none := by
  refine ⟨by decide, rfl, rfl⟩
